import Mathlib

/-!
# Verification of the CSV streaming parser module

Shallow embedding of the CSV preview / streaming-processing module
(`parsePreview` and `processFile` together with their helpers).

The external tokenizer (PapaParse) is modelled by the sequence of chunk
callbacks it fires: each chunk carries an ordered list of raw rows (cells
may be non-string values, which the module coerces to the empty string)
and a list of non-fatal row-level errors.  The module's own logic — BOM
stripping, header skipping, record building, batching, progress counting,
preview padding — is translated from the source.
-/

set_option autoImplicit false

namespace CsvParser

/-- `const BOM_CODE = 65279` — the U+FEFF byte-order-mark codepoint. -/
def BOM_CODE : Nat := 65279

/-- A raw cell as delivered by the tokenizer: either a string or some
non-string value (the source tests `typeof item === 'string'`). -/
inductive Cell where
  | str (s : String)
  | nonStr
deriving DecidableEq, Repr

/-- `typeof item === 'string' ? item : ''` — coerce a raw cell to a string. -/
def coerceCell : Cell → String
  | .str s => s
  | .nonStr => ""

/-- Coercion of a whole raw row (the `.map` in both chunk handlers). -/
def coerceRow (row : List Cell) : List String :=
  row.map coerceCell

/-- `cleanLeadingBOM`: if the row is non-empty and the first cell's first
UTF-16 code unit is the BOM codepoint, drop that one leading character of
the first cell (`row[0] = row[0].substring(1)`).  `charCodeAt(0)` on an
empty string is NaN, never equal to `BOM_CODE`; for a first character
outside the BMP the first code unit is a surrogate, also never equal, and
in that case the first character's codepoint is above 0xFFFF so the
comparison below agrees. -/
def cleanLeadingBOM (row : List String) : List String :=
  match row with
  | [] => row
  | c :: rest =>
    match c.data with
    | ch :: chTail => if ch.toNat = BOM_CODE then String.mk chTail :: rest else c :: rest
    | [] => c :: rest

/-- Whether a string starts with the byte-order mark. -/
def startsWithBOM (c : String) : Bool :=
  match c.data with
  | ch :: _ => ch.toNat = BOM_CODE
  | [] => false

/-- One pass of the per-chunk row loop shared by `parsePreview`'s `chunk`
callback and `processFile`'s `chunk` callback: coerce every cell to a
string and, while the `skipBOM` flag is still set, clean the leading BOM
of the current row and clear the flag (the flag is cleared on the first
row inspected even if no BOM was found, and even if the row is empty).
Returns the normalized rows together with the final value of the flag. -/
def normalizeRows (skipBOM : Bool) : List (List Cell) → List (List String) × Bool
  | [] => ([], skipBOM)
  | row :: rest =>
    let stringRow := if skipBOM then cleanLeadingBOM (coerceRow row) else coerceRow row
    let next := normalizeRows false rest
    (stringRow :: next.1, next.2)

/-! ## Preview data model -/

/-- Minimal model of the browser `File` handle carried through results. -/
structure File where
  name : String
deriving DecidableEq, Repr

/-- Model of a non-fatal `Papa.ParseError` row-level error object. -/
structure PapaError where
  message : String
deriving DecidableEq, Repr

/-- `export const PREVIEW_ROW_COUNT = 5`. -/
def PREVIEW_ROW_COUNT : Nat := 5

/-- The successful preview payload (`PreviewReport`). -/
structure PreviewReport where
  file : File
  firstChunk : String
  firstRows : List (List String)
  isSingleLine : Bool
  parseWarning : Option PapaError
deriving DecidableEq, Repr

/-- The error carried by the failure variant of `PreviewResults`: either a
plain JS `Error` (identified by its message) or a fatal tokenizer error. -/
inductive PreviewError where
  | jsError (message : String)
  | papa (e : PapaError)
deriving DecidableEq, Repr

/-- `PreviewResults`: failure variant (parseError + file) or success. -/
inductive PreviewResults where
  | failure (parseError : PreviewError) (file : File)
  | success (report : PreviewReport)
deriving DecidableEq, Repr

/-- One `chunk` callback payload from the tokenizer: the parsed rows and
the non-fatal row-level errors of that chunk. -/
structure PreviewChunk where
  data : List (List Cell)
  errors : List PapaError
deriving DecidableEq, Repr

/-- How the tokenizer run behaves on the given file: either the fatal
`error` callback fires, or a sequence of `chunk` callbacks would be fired
followed by `complete` (the module aborts after the first chunk, so later
chunks are never observed). -/
inductive PapaFeed where
  | fatal (err : PapaError)
  | chunks (cs : List PreviewChunk)
deriving DecidableEq, Repr

/-- `reportSuccess` from `parsePreview`, as an effect on the wrapping
promise: `some r` means `resolve r` is invoked.  When zero rows were
accumulated the source builds `{ parseError: new Error('File is empty'),
file }` but `return`s that object from the callback instead of calling
`resolve`, so on that path the promise is not settled — modelled as
`none`. -/
def reportSuccess (file : File) (firstChunk : Option String)
    (firstWarning : Option PapaError) (rowAccumulator : List (List String)) :
    Option PreviewResults :=
  if rowAccumulator.length = 0 then
    none
  else
    let isSingleLine := rowAccumulator.length == 1
    let firstRows := rowAccumulator ++ List.replicate (PREVIEW_ROW_COUNT - rowAccumulator.length) []
    some (.success {
      file := file
      firstChunk := firstChunk.getD ""
      firstRows := firstRows
      isSingleLine := isSingleLine
      parseWarning := firstWarning })

/-- `parsePreview`, as a function of the tokenizer behaviour and of the
text captured by `beforeFirstChunk`.  The result is the value the wrapping
promise is resolved with, or `none` when no `resolve` call ever happens.
Control flow of the source: the fatal `error` callback resolves the
failure variant; with no chunk at all, `complete` fires and calls
`reportSuccess` on the empty accumulator; otherwise the first `chunk`
callback accumulates its rows (coercing cells, clearing the leading BOM of
the first row via the chunk-local `skipBOM` flag), records the chunk's
first row-level error as `firstWarning`, pauses the stream, aborts the
parser (so no later chunk is observed) and calls `reportSuccess`. -/
def parsePreview (file : File) (firstChunkText : Option String) :
    PapaFeed → Option PreviewResults
  | .fatal err => some (.failure (.papa err) file)
  | .chunks [] => reportSuccess file firstChunkText none []
  | .chunks (c :: _) =>
    reportSuccess file firstChunkText c.errors.head? (normalizeRows true c.data).1

/-! ## Streaming processor data model -/

/-- `FieldAssignmentMap`: a JS object mapping field names to an optional
column index, modelled as its ordered key/value list (`Object.keys`
order); keys are unique in a JS object. -/
abbrev FieldAssignmentMap := List (String × Option Nat)

/-- A delivered `Record`: a JS object mapping field names to the value
read from the row.  A key may be present with value `none`, modelling a
key that was assigned the JS value `undefined`. -/
abbrev Record := List (String × Option String)

/-- JS object property assignment `obj[k] = v`: overwrite in place when
the key exists, append otherwise. -/
def jsSet (obj : List (String × Option String)) (k : String) (v : Option String) :
    List (String × Option String) :=
  if obj.any (fun p => p.1 = k) then
    obj.map (fun p => if p.1 = k then (k, v) else p)
  else
    obj ++ [(k, v)]

/-- The record-building loop of `processFile`'s chunk handler: for every
field name (in `Object.keys(fieldAssignments)` order) whose assignment is
defined, `record[fieldName] = stringRow[columnIndex]` — where the indexing
yields `undefined` (`none`) when the row is shorter than the index. -/
def buildRecord (fieldAssignments : FieldAssignmentMap) (stringRow : List String) :
    List (String × Option String) :=
  fieldAssignments.foldl
    (fun record p =>
      match p.2 with
      | some columnIndex => jsSet record p.1 stringRow[columnIndex]?
      | none => record)
    []

/-- The run-scoped mutable state of `processFile`:
`let skipLine = hasHeaders; let skipBOM = !hasHeaders; let processedCount = 0`. -/
structure RunState where
  skipLine : Bool
  skipBOM : Bool
  processedCount : Nat
deriving DecidableEq, Repr

/-- One invocation of the consumer callback: the mapped records and the
`info.startIndex` snapshot passed along. -/
structure BatchInfo where
  records : List (List (String × Option String))
  startIndex : Nat
deriving Repr

/-- Observable outcome of a streaming run that reaches `complete`:
the consumer-callback invocations in order, the `reportProgress` deltas in
order (one per chunk), the string rows produced by the normalizer in order
(the rows the records were built from), and the final run state. -/
structure RunOutput where
  batches : List BatchInfo
  progress : List Nat
  normRows : List (List String)
  finalState : RunState
deriving Repr

/-- The chunk loop of `processFile`.  Per chunk (translated line by line
from the `chunk` callback): `skipped = skipLine && data.length > 0`; the
first row of the chunk is dropped when `skipped`; the remaining rows are
coerced, BOM-cleaned under the threaded `skipBOM` flag, and mapped to
records; `skipLine` is cleared when something was skipped; the
`startIndex` snapshot is the previous `processedCount`, which then
advances by the batch length; `reportProgress` receives the batch length
(also when zero); the consumer callback is invoked only when the batch is
non-empty. -/
def runChunks (fieldAssignments : FieldAssignmentMap) (st : RunState) :
    List (List (List Cell)) → RunOutput
  | [] => { batches := [], progress := [], normRows := [], finalState := st }
  | data :: restChunks =>
    let skipped := st.skipLine && !data.isEmpty
    let afterSkip := if skipped then data.drop 1 else data
    let normed := normalizeRows st.skipBOM afterSkip
    let rows := normed.1.map (buildRecord fieldAssignments)
    let st' : RunState :=
      { skipLine := if skipped then false else st.skipLine
        skipBOM := normed.2
        processedCount := st.processedCount + rows.length }
    let startIndex := st.processedCount
    let rest := runChunks fieldAssignments st' restChunks
    { batches :=
        (if rows.isEmpty then [] else [{ records := rows, startIndex := startIndex }])
          ++ rest.batches
      progress := rows.length :: rest.progress
      normRows := normed.1 ++ rest.normRows
      finalState := rest.finalState }

/-- `processFile` on a file whose tokenizer run delivers the given chunk
sequence and then completes: initial state `skipLine = hasHeaders`,
`skipBOM = !hasHeaders`, `processedCount = 0`. -/
def processFile (hasHeaders : Bool) (fieldAssignments : FieldAssignmentMap)
    (chunks : List (List (List Cell))) : RunOutput :=
  runChunks fieldAssignments { skipLine := hasHeaders, skipBOM := !hasHeaders, processedCount := 0 } chunks

/-! ## Specification-side definitions -/

/-- Clean the leading BOM of the first row of a row list, leaving every
other row untouched. -/
def cleanFirstRow : List (List String) → List (List String)
  | [] => []
  | r :: rest => cleanLeadingBOM r :: rest

/-- Written from the spec's words, for refinement comparison: "the file's
full row sequence with the header row removed (when hasHeaders is true)
and BOM removed, in original order", where BOM removal targets the first
row of the run, independent of whether that row is the header. -/
def specDeliveredRows (hasHeaders : Bool) (fileRows : List (List Cell)) :
    List (List String) :=
  let cleaned := cleanFirstRow (fileRows.map coerceRow)
  if hasHeaders then cleaned.drop 1 else cleaned

/-- The contiguity invariant on a batch sequence: starting from a given
count, every batch is non-empty, carries the running count as its
`startIndex`, and advances the count by its length. -/
def Chained : Nat → List BatchInfo → Prop
  | _, [] => True
  | n, b :: bs => b.startIndex = n ∧ b.records ≠ [] ∧ Chained (n + b.records.length) bs

/-- Extract the `isSingleLine` flag from a resolved successful preview. -/
def previewIsSingleLine : Option PreviewResults → Option Bool
  | some (.success r) => some r.isSingleLine
  | _ => none

/-! ## Backpressure trace machine

`processFile`'s chunk handler is synchronous JavaScript: on delivery of a
chunk it pauses the byte source and the tokenizer (`nodeStream.pause();
parser.pause()`) before doing anything else, invokes the consumer
callback inside the promise executor, and resumes both in the two-branch
`then` handler once the consumer's promise settles.  The machine below
embeds that discipline.  The guard of `deliver` — the tokenizer hands the
next chunk to the handler only while neither the byte source nor the
tokenizer is paused — is the pause contract of the two external
capabilities (ReadableWebToNodeStream and PapaParse), modelled from the
spec; everything else is translated from the chunk handler. -/

/-- Observable events of one streaming run. -/
inductive Ev where
  | deliver (k : Nat)
  | invoke (k : Nat)
  | settle (k : Nat) (fulfilled : Bool)
  | resumeSource (k : Nat)
  | resumeParser (k : Nat)
deriving DecidableEq, Repr

/-- Scheduler-visible state of a run: the two pause flags, the index of
the next chunk the tokenizer would deliver, and the chunk (if any) whose
consumer promise is still pending. -/
structure MState where
  sourcePaused : Bool
  parserPaused : Bool
  nextChunk : Nat
  awaiting : Option Nat
deriving DecidableEq, Repr

/-- One step of the run.  `deliver`: while neither actor is paused the
tokenizer delivers the next chunk; the handler synchronously pauses both
and invokes the consumer callback for it.  `settle`: the consumer's
promise for the pending chunk settles — fulfilled or rejected — and the
`then` handler resumes the byte source and the tokenizer. -/
inductive Step : MState → List Ev → MState → Prop where
  | deliver (st : MState)
      (hs : st.sourcePaused = false) (hp : st.parserPaused = false) :
      Step st [.deliver st.nextChunk, .invoke st.nextChunk]
        { sourcePaused := true, parserPaused := true,
          nextChunk := st.nextChunk + 1, awaiting := some st.nextChunk }
  | settle (st : MState) (k : Nat) (fulfilled : Bool)
      (h : st.awaiting = some k) :
      Step st [.settle k fulfilled, .resumeSource k, .resumeParser k]
        { sourcePaused := false, parserPaused := false,
          nextChunk := st.nextChunk, awaiting := none }

/-- Traces reachable from the start of a run (both actors unpaused,
nothing delivered, nothing pending). -/
inductive Reach : List Ev → MState → Prop where
  | init : Reach [] { sourcePaused := false, parserPaused := false, nextChunk := 0, awaiting := none }
  | step {tr : List Ev} {st : MState} {evs : List Ev} {st' : MState} :
      Reach tr st → Step st evs st' → Reach (tr ++ evs) st'

/-- The event block of one fully processed chunk. -/
def chunkBlock (k : Nat) (fulfilled : Bool) : List Ev :=
  [.deliver k, .invoke k, .settle k fulfilled, .resumeSource k, .resumeParser k]

/-- Trace of a run that fully processed one chunk per listed consumer
outcome, starting at chunk index `b`. -/
def completedTraceFrom (b : Nat) : List Bool → List Ev
  | [] => []
  | ok :: rest => chunkBlock b ok ++ completedTraceFrom (b + 1) rest

/-- The event at offset `r` inside the block of chunk `k`. -/
def blockElem (k : Nat) (ok : Bool) : Nat → Ev
  | 0 => .deliver k
  | 1 => .invoke k
  | 2 => .settle k ok
  | 3 => .resumeSource k
  | _ => .resumeParser k

/-! ## Normalizer lemmas -/

theorem normalizeRows_nil (f : Bool) : normalizeRows f [] = ([], f) := rfl

theorem normalizeRows_cons (f : Bool) (row : List Cell) (rest : List (List Cell)) :
    normalizeRows f (row :: rest)
      = ((if f then cleanLeadingBOM (coerceRow row) else coerceRow row)
            :: (normalizeRows false rest).1,
         (normalizeRows false rest).2) := rfl

theorem normalizeRows_false (xs : List (List Cell)) :
    normalizeRows false xs = (xs.map coerceRow, false) := by
  induction xs with
  | nil => rfl
  | cons x xs ih => simp [normalizeRows_cons, ih]

theorem normalizeRows_fst_true (xs : List (List Cell)) :
    (normalizeRows true xs).1 = cleanFirstRow (xs.map coerceRow) := by
  cases xs with
  | nil => rfl
  | cons x xs => simp [normalizeRows_cons, normalizeRows_false, cleanFirstRow]

theorem normalizeRows_length (f : Bool) (xs : List (List Cell)) :
    (normalizeRows f xs).1.length = xs.length := by
  induction xs generalizing f with
  | nil => rfl
  | cons x xs ih => simp [normalizeRows_cons, ih]

theorem normalizeRows_fst_append (f : Bool) (xs ys : List (List Cell)) :
    (normalizeRows f (xs ++ ys)).1
      = (normalizeRows f xs).1 ++ (normalizeRows (normalizeRows f xs).2 ys).1 := by
  induction xs generalizing f with
  | nil => simp [normalizeRows_nil]
  | cons x xs ih => simp [normalizeRows_cons, ih]

theorem cleanFirstRow_drop_one (l : List (List String)) :
    (cleanFirstRow l).drop 1 = l.drop 1 := by
  cases l <;> rfl

/-! ## Streaming run lemmas -/

theorem runChunks_normRows (fa : FieldAssignmentMap) (chunks : List (List (List Cell))) :
    ∀ st : RunState,
      (runChunks fa st chunks).normRows
        = (normalizeRows st.skipBOM
            (if st.skipLine then chunks.flatten.drop 1 else chunks.flatten)).1 := by
  induction chunks with
  | nil =>
    intro st
    cases st.skipLine <;> simp [runChunks, normalizeRows_nil]
  | cons data rest ih =>
    intro st
    cases hl : st.skipLine with
    | false =>
      simp only [runChunks, hl, Bool.false_and, Bool.false_eq_true, if_false,
        List.flatten_cons]
      rw [ih, normalizeRows_fst_append]
      simp
    | true =>
      cases data with
      | nil =>
        simp only [runChunks, hl, List.isEmpty_nil, Bool.not_true, Bool.and_false,
          Bool.false_eq_true, if_false, List.flatten_cons, List.nil_append]
        rw [ih, normalizeRows_nil]
        simp [hl]
      | cons d ds =>
        simp only [runChunks, hl, List.isEmpty_cons, Bool.not_false, Bool.and_true,
          if_true, List.flatten_cons, List.cons_append, List.drop_succ_cons,
          List.drop_zero]
        rw [ih, normalizeRows_fst_append]
        simp

theorem batch_prepend_flatten (rows : List (List (String × Option String))) (si : Nat)
    (bs : List BatchInfo) :
    ((((if rows.isEmpty then ([] : List BatchInfo)
          else [{ records := rows, startIndex := si }]) ++ bs).map BatchInfo.records).flatten)
      = rows ++ ((bs.map BatchInfo.records).flatten) := by
  cases rows <;> simp

theorem runChunks_flatten_batches (fa : FieldAssignmentMap) (chunks : List (List (List Cell))) :
    ∀ st : RunState,
      (((runChunks fa st chunks).batches.map BatchInfo.records).flatten)
        = (runChunks fa st chunks).normRows.map (buildRecord fa) := by
  induction chunks with
  | nil => intro st; rfl
  | cons data rest ih =>
    intro st
    simp only [runChunks]
    rw [batch_prepend_flatten, ih]
    simp

/-- C2: for every streaming run that completes, the concatenation of all
record batches passed to the consumer callback, in delivery order, equals
the file's full row sequence with the header row removed (when
`hasHeaders`) and BOM removed, each row mapped through the field
assignment, in original file order — no row duplicated, dropped or
reordered. -/
theorem processFile_delivers_file_rows (hasHeaders : Bool) (fa : FieldAssignmentMap)
    (chunks : List (List (List Cell))) :
    (((processFile hasHeaders fa chunks).batches.map BatchInfo.records).flatten)
      = (specDeliveredRows hasHeaders chunks.flatten).map (buildRecord fa) := by
  unfold processFile
  rw [runChunks_flatten_batches, runChunks_normRows]
  cases hasHeaders with
  | false => simp [specDeliveredRows, normalizeRows_fst_true]
  | true =>
    simp only [specDeliveredRows, Bool.not_true, if_true, cleanFirstRow_drop_one]
    rw [normalizeRows_false]
    simp [List.map_drop]

/-! ## Batch chain lemmas -/

theorem chained_prepend (rows : List (List (String × Option String))) (n : Nat)
    (bs : List BatchInfo) (h : Chained (n + rows.length) bs) :
    Chained n ((if rows.isEmpty then ([] : List BatchInfo)
        else [{ records := rows, startIndex := n }]) ++ bs) := by
  cases rows with
  | nil => simpa using h
  | cons r rs =>
    simp only [List.isEmpty_cons, Bool.false_eq_true, if_false, List.cons_append,
      List.nil_append]
    exact ⟨rfl, by simp, h⟩

theorem runChunks_chained (fa : FieldAssignmentMap) (chunks : List (List (List Cell))) :
    ∀ st : RunState, Chained st.processedCount (runChunks fa st chunks).batches := by
  induction chunks with
  | nil => intro st; trivial
  | cons data rest ih =>
    intro st
    simp only [runChunks]
    exact chained_prepend _ _ _ (ih ⟨_, _, _⟩)

theorem chained_le (bs : List BatchInfo) : ∀ n : Nat, Chained n bs →
    ∀ b ∈ bs, n ≤ b.startIndex := by
  induction bs with
  | nil => simp
  | cons b bs ih =>
    intro n h b' hb'
    obtain ⟨h1, _h2, h3⟩ := h
    rcases List.mem_cons.mp hb' with rfl | hmem
    · omega
    · exact le_trans (Nat.le_add_right _ _) (ih _ h3 b' hmem)

theorem chained_pairwise (bs : List BatchInfo) : ∀ n : Nat, Chained n bs →
    bs.Pairwise (fun a b => a.startIndex < b.startIndex) := by
  induction bs with
  | nil => intro n _; exact List.Pairwise.nil
  | cons b bs ih =>
    intro n h
    obtain ⟨h1, h2, h3⟩ := h
    refine List.Pairwise.cons (fun b' hb' => ?_) (ih _ h3)
    have hlen : 0 < b.records.length := List.length_pos.mpr h2
    have := chained_le bs _ h3 b' hb'
    omega

/-- C5: across one streaming run, the first delivered batch's
`startIndex` is 0, every later batch's `startIndex` equals the previous
batch's `startIndex` plus the previous batch's length (each delivered
batch being non-empty), and `startIndex` values are strictly increasing
across the run. -/
theorem processFile_startIndex_contiguous (hasHeaders : Bool) (fa : FieldAssignmentMap)
    (chunks : List (List (List Cell))) :
    Chained 0 (processFile hasHeaders fa chunks).batches ∧
    (processFile hasHeaders fa chunks).batches.Pairwise
      (fun a b => a.startIndex < b.startIndex) := by
  have h := runChunks_chained fa chunks
    { skipLine := hasHeaders, skipBOM := !hasHeaders, processedCount := 0 }
  exact ⟨h, chained_pairwise _ _ h⟩

/-! ## Progress accounting lemmas -/

theorem runChunks_progress_length (fa : FieldAssignmentMap)
    (chunks : List (List (List Cell))) :
    ∀ st : RunState, (runChunks fa st chunks).progress.length = chunks.length := by
  induction chunks with
  | nil => intro st; rfl
  | cons data rest ih =>
    intro st
    simp only [runChunks, List.length_cons]
    rw [ih]

theorem runChunks_processedCount (fa : FieldAssignmentMap)
    (chunks : List (List (List Cell))) :
    ∀ st : RunState,
      (runChunks fa st chunks).finalState.processedCount
        = st.processedCount + (runChunks fa st chunks).progress.sum := by
  induction chunks with
  | nil => intro st; simp [runChunks]
  | cons data rest ih =>
    intro st
    simp only [runChunks, List.sum_cons]
    rw [ih]
    simp only [RunState.processedCount]
    omega

theorem runChunks_progress_sum (fa : FieldAssignmentMap)
    (chunks : List (List (List Cell))) :
    ∀ st : RunState,
      ((runChunks fa st chunks).batches.map (fun b => b.records.length)).sum
        = (runChunks fa st chunks).progress.sum := by
  induction chunks with
  | nil => intro st; rfl
  | cons data rest ih =>
    intro st
    simp only [runChunks]
    generalize List.map (buildRecord fa)
        (normalizeRows st.skipBOM
          (if st.skipLine && !data.isEmpty then List.drop 1 data else data)).1 = rows
    rw [List.map_append, List.sum_append, ih ⟨_, _, _⟩, List.sum_cons]
    cases rows <;> simp

theorem runChunks_batches_length (fa : FieldAssignmentMap)
    (chunks : List (List (List Cell))) :
    ∀ st : RunState,
      (runChunks fa st chunks).batches.length
        = ((runChunks fa st chunks).progress.filter (fun n => n != 0)).length := by
  induction chunks with
  | nil => intro st; rfl
  | cons data rest ih =>
    intro st
    simp only [runChunks]
    generalize List.map (buildRecord fa)
        (normalizeRows st.skipBOM
          (if st.skipLine && !data.isEmpty then List.drop 1 data else data)).1 = rows
    rw [List.length_append, List.filter_cons, ih ⟨_, _, _⟩]
    cases rows <;> simp
    omega

/-- C10: across one completed run, the sum of all `reportProgress` deltas
equals the total number of records delivered to the consumer and equals
the final `processedCount`; every chunk produces exactly one
`reportProgress` call (also when it yields zero records), and the
consumer is invoked exactly for the chunks whose delta is non-zero. -/
theorem processFile_progress_accounting (hasHeaders : Bool) (fa : FieldAssignmentMap)
    (chunks : List (List (List Cell))) :
    (processFile hasHeaders fa chunks).progress.sum
        = ((processFile hasHeaders fa chunks).batches.map (fun b => b.records.length)).sum
      ∧ (processFile hasHeaders fa chunks).finalState.processedCount
        = (processFile hasHeaders fa chunks).progress.sum
      ∧ (processFile hasHeaders fa chunks).progress.length = chunks.length
      ∧ (processFile hasHeaders fa chunks).batches.length
        = ((processFile hasHeaders fa chunks).progress.filter (fun n => n != 0)).length := by
  refine ⟨(runChunks_progress_sum fa chunks _).symm, ?_,
    runChunks_progress_length fa chunks _, runChunks_batches_length fa chunks _⟩
  have h := runChunks_processedCount fa chunks
    { skipLine := hasHeaders, skipBOM := !hasHeaders, processedCount := 0 }
  simpa using h

/-! ## BOM placement (preview and streaming) -/

/-- C4: in both `parsePreview` and `processFile`, a leading U+FEFF is
removed from exactly the first cell of the first row of the run —
independent of whether that first row is the header or a data row — and
from no other row's first cell even if that cell also starts with U+FEFF:
the streaming normalizer's output is the coerced flattened row sequence
with `cleanLeadingBOM` applied to the first row only, the header (when
declared) being dropped afterwards; the preview accumulator likewise
cleans only its first row; `cleanFirstRow` leaves every later row
untouched; and `cleanLeadingBOM` touches only the first cell, removing
exactly one leading U+FEFF character when present. -/
theorem bom_stripped_from_first_row_only :
    (∀ (hasHeaders : Bool) (fa : FieldAssignmentMap) (chunks : List (List (List Cell))),
        (processFile hasHeaders fa chunks).normRows
          = specDeliveredRows hasHeaders chunks.flatten)
    ∧ (∀ (file : File) (fc : Option String) (c : PreviewChunk) (rest : List PreviewChunk),
        parsePreview file fc (.chunks (c :: rest))
          = reportSuccess file fc c.errors.head? (cleanFirstRow (c.data.map coerceRow)))
    ∧ (∀ (r : List String) (rest : List (List String)),
        cleanFirstRow (r :: rest) = cleanLeadingBOM r :: rest)
    ∧ (∀ (ch : Char) (chTail : List Char) (cells : List String),
        cleanLeadingBOM (String.mk (ch :: chTail) :: cells)
          = (if ch.toNat = BOM_CODE then String.mk chTail
             else String.mk (ch :: chTail)) :: cells) := by
  refine ⟨?_, ?_, ?_, ?_⟩
  · intro hasHeaders fa chunks
    unfold processFile
    rw [runChunks_normRows]
    cases hasHeaders with
    | false => simp [specDeliveredRows, normalizeRows_fst_true]
    | true =>
      simp only [specDeliveredRows, Bool.not_true, if_true, cleanFirstRow_drop_one]
      rw [normalizeRows_false]
      simp [List.map_drop]
  · intro file fc c rest
    simp only [parsePreview]
    rw [normalizeRows_fst_true]
  · intro r rest
    rfl
  · intro ch chTail cells
    by_cases h : ch.toNat = BOM_CODE <;> simp [cleanLeadingBOM, h]

/-! ## Preview theorems -/

/-- C1: [code-bug evaluation] on a tokenizer run that accumulates zero
rows, `parsePreview`'s promise is never settled: `reportSuccess` builds
the "File is empty" failure value but returns it from the callback
without calling `resolve`, so no `PreviewResults` outcome is produced
(modelled as `none`) — shown on an empty file (no chunk at all) and on a
run whose only chunk carries no rows. -/
theorem parsePreview_empty_file_never_resolves :
    parsePreview { name := "empty.csv" } none (.chunks []) = none
    ∧ parsePreview { name := "empty.csv" } (some "")
        (.chunks [{ data := [], errors := [] }]) = none :=
  ⟨rfl, rfl⟩

/-- C7: [counterexample] a file whose two rows are delivered by the
tokenizer in two separate chunks (as happens when rows exceed the preview
chunk size): the run carries two rows in total, yet `parsePreview` —
which aborts after the first chunk — reports `isSingleLine = true`. -/
theorem parsePreview_isSingleLine_cex :
    (([{ data := [[Cell.str "a"]], errors := [] },
       { data := [[Cell.str "b"]], errors := [] }] : List PreviewChunk).flatMap
        PreviewChunk.data).length = 2
    ∧ previewIsSingleLine
        (parsePreview { name := "two-rows.csv" } (some "a")
          (.chunks [{ data := [[Cell.str "a"]], errors := [] },
                    { data := [[Cell.str "b"]], errors := [] }])) = some true :=
  ⟨rfl, rfl⟩

/-- C7 (amended): `isSingleLine` is computed from the rows accumulated
out of the first tokenizer chunk only (parsing is aborted after it): it
is `true` exactly when that chunk contains one row.  For files whose rows
all arrive in the first chunk this coincides with the file having exactly
one row. -/
theorem parsePreview_isSingleLine_first_chunk (file : File) (fc : Option String)
    (c : PreviewChunk) (rest : List PreviewChunk) (h : c.data ≠ []) :
    previewIsSingleLine (parsePreview file fc (.chunks (c :: rest)))
      = some (c.data.length == 1) := by
  have hlen : (normalizeRows true c.data).1.length = c.data.length :=
    normalizeRows_length _ _
  simp only [parsePreview, reportSuccess, hlen]
  rw [if_neg (by simpa [List.length_eq_zero] using h)]
  simp [previewIsSingleLine]

/-- Witness for the amended C7 theorem at a concrete one-row file. -/
theorem parsePreview_isSingleLine_first_chunk_witness :
    previewIsSingleLine (parsePreview { name := "one-row.csv" } none
        (.chunks [{ data := [[Cell.str "a"]], errors := [] }])) = some true :=
  parsePreview_isSingleLine_first_chunk _ _ _ _ (by decide)

/-- C8: for a run whose first chunk is non-empty (and within the
tokenizer's preview cap of `PREVIEW_ROW_COUNT` rows), `parsePreview`
resolves successfully with exactly `PREVIEW_ROW_COUNT = 5` rows: the
normalized rows of the first chunk padded with zero-length rows. -/
theorem parsePreview_pads_to_five (file : File) (fc : Option String)
    (c : PreviewChunk) (rest : List PreviewChunk) (h : c.data ≠ [])
    (hcap : c.data.length ≤ PREVIEW_ROW_COUNT) :
    parsePreview file fc (.chunks (c :: rest))
      = some (.success
          { file := file
            firstChunk := fc.getD ""
            firstRows := (normalizeRows true c.data).1
              ++ List.replicate (PREVIEW_ROW_COUNT - c.data.length) []
            isSingleLine := c.data.length == 1
            parseWarning := c.errors.head? })
    ∧ ((normalizeRows true c.data).1
        ++ List.replicate (PREVIEW_ROW_COUNT - c.data.length) []).length
      = PREVIEW_ROW_COUNT := by
  have hlen : (normalizeRows true c.data).1.length = c.data.length :=
    normalizeRows_length _ _
  constructor
  · simp only [parsePreview, reportSuccess, hlen]
    rw [if_neg (by simpa [List.length_eq_zero] using h)]
  · simp only [List.length_append, List.length_replicate, hlen]
    omega

/-- Witness for the C8 theorem at a concrete one-row file. -/
theorem parsePreview_pads_to_five_witness :
    parsePreview { name := "pad.csv" } (some "a")
        (.chunks [{ data := [[Cell.str "a"]], errors := [] }])
      = some (.success
          { file := { name := "pad.csv" }
            firstChunk := (some "a").getD ""
            firstRows := (normalizeRows true [[Cell.str "a"]]).1
              ++ List.replicate (PREVIEW_ROW_COUNT - ([[Cell.str "a"]] : List (List Cell)).length) []
            isSingleLine := ([[Cell.str "a"]] : List (List Cell)).length == 1
            parseWarning := ([] : List PapaError).head? })
    ∧ (((normalizeRows true [[Cell.str "a"]]).1
        ++ List.replicate (PREVIEW_ROW_COUNT - ([[Cell.str "a"]] : List (List Cell)).length) []).length)
      = PREVIEW_ROW_COUNT :=
  parsePreview_pads_to_five _ _ _ [] (by decide) (by decide)

/-! ## Record building -/

theorem jsSet_mem_self (obj : List (String × Option String)) (k : String) (v : Option String) :
    (k, v) ∈ jsSet obj k v := by
  unfold jsSet
  by_cases h : obj.any (fun p => p.1 = k)
  · rw [if_pos h]
    rw [List.any_eq_true] at h
    obtain ⟨p, hp, hpk⟩ := h
    simp only [decide_eq_true_eq] at hpk
    refine List.mem_map.mpr ⟨p, hp, ?_⟩
    simp [hpk]
  · rw [if_neg h]
    simp

theorem jsSet_mem_other (obj : List (String × Option String)) (k : String) (v : Option String)
    (k' : String) (v' : Option String) (hne : k ≠ k') (hmem : (k, v) ∈ obj) :
    (k, v) ∈ jsSet obj k' v' := by
  unfold jsSet
  by_cases h : obj.any (fun p => p.1 = k')
  · rw [if_pos h]
    refine List.mem_map.mpr ⟨(k, v), hmem, ?_⟩
    simp [hne]
  · rw [if_neg h]
    exact List.mem_append_left _ hmem

theorem buildRecord_foldl_preserve (row : List String) (k : String) (v : Option String) :
    ∀ (fa : List (String × Option Nat)) (obj : List (String × Option String)),
      (∀ p ∈ fa, p.1 ≠ k) → (k, v) ∈ obj →
      (k, v) ∈ fa.foldl (fun record p =>
        match p.2 with
        | some columnIndex => jsSet record p.1 row[columnIndex]?
        | none => record) obj := by
  intro fa
  induction fa with
  | nil => intro obj _ h; exact h
  | cons p fa ih =>
    intro obj hk hmem
    simp only [List.foldl_cons]
    refine ih _ (fun q hq => hk q (List.mem_cons_of_mem _ hq)) ?_
    cases hp : p.2 with
    | none => simpa [hp] using hmem
    | some ci =>
      simp only [hp]
      exact jsSet_mem_other _ _ _ _ _ (Ne.symm (hk p (List.mem_cons_self _ _))) hmem

theorem buildRecord_foldl_mem (row : List String) (k : String) (i : Nat) :
    ∀ (fa : List (String × Option Nat)) (obj : List (String × Option String)),
      (fa.map Prod.fst).Nodup → (k, some i) ∈ fa →
      (k, row[i]?) ∈ fa.foldl (fun record p =>
        match p.2 with
        | some columnIndex => jsSet record p.1 row[columnIndex]?
        | none => record) obj := by
  intro fa
  induction fa with
  | nil => intro obj _ h; cases h
  | cons p fa ih =>
    intro obj hnd hmem
    simp only [List.map_cons, List.nodup_cons] at hnd
    obtain ⟨hp1, hnd'⟩ := hnd
    rcases List.mem_cons.mp hmem with heq | hmem'
    · subst heq
      simp only [List.foldl_cons]
      refine buildRecord_foldl_preserve row k _ fa _ (fun q hq hqk => hp1 ?_)
        (jsSet_mem_self _ _ _)
      show k ∈ List.map Prod.fst fa
      rw [← hqk]
      exact List.mem_map_of_mem Prod.fst hq
    · simp only [List.foldl_cons]
      exact ih _ hnd' hmem'

/-- C3: [counterexample] with assignment index 5 on a 3-cell row, the
assigned field name IS present as a key of the built Record — bound to
the JS value `undefined` — contradicting the claim that it is absent. -/
theorem buildRecord_short_row_cex :
    buildRecord [("f", some 5)] ["a", "b", "c"] = [("f", (none : Option String))]
    ∧ (buildRecord [("f", some 5)] ["a", "b", "c"]).any (fun p => p.1 = "f") = true :=
  ⟨rfl, rfl⟩

/-- C3 (amended): for every row shorter than an assigned column index,
the Record built by `processFile` has the field name present as a key
with the JS value `undefined` (modelled `none`): the out-of-range
indexing `stringRow[columnIndex]` yields `undefined`, which is then
assigned to the key. -/
theorem buildRecord_short_row_key_undefined (fa : FieldAssignmentMap) (row : List String)
    (k : String) (i : Nat) (hnd : (fa.map Prod.fst).Nodup) (hmem : (k, some i) ∈ fa)
    (hshort : row.length ≤ i) :
    (k, (none : Option String)) ∈ buildRecord fa row := by
  have h := buildRecord_foldl_mem row k i fa [] hnd hmem
  rwa [List.getElem?_eq_none hshort] at h

/-- Witness for the amended C3 theorem at a concrete short row. -/
theorem buildRecord_short_row_key_undefined_witness :
    ("f", (none : Option String)) ∈ buildRecord [("f", some 5)] ["a", "b", "c"] :=
  buildRecord_short_row_key_undefined _ _ "f" 5 (by decide) (by decide) (by decide)

/-! ## Backpressure trace lemmas -/

theorem chunkBlock_length (k : Nat) (ok : Bool) : (chunkBlock k ok).length = 5 := rfl

theorem completedTraceFrom_append (xs ys : List Bool) : ∀ b : Nat,
    completedTraceFrom b (xs ++ ys)
      = completedTraceFrom b xs ++ completedTraceFrom (b + xs.length) ys := by
  induction xs with
  | nil => intro b; simp [completedTraceFrom]
  | cons x xs ih =>
    intro b
    simp only [List.cons_append, completedTraceFrom, List.append_eq, ih (b + 1),
      List.append_assoc, List.length_cons]
    rw [show b + (xs.length + 1) = b + 1 + xs.length from by omega]

theorem completedTraceFrom_length (outs : List Bool) : ∀ b : Nat,
    (completedTraceFrom b outs).length = 5 * outs.length := by
  induction outs with
  | nil => intro b; rfl
  | cons ok rest ih =>
    intro b
    simp only [completedTraceFrom, List.length_append, chunkBlock_length, ih (b + 1),
      List.length_cons]
    omega

theorem chunkBlock_getElem? (k : Nat) (ok : Bool) (i : Nat) (h : i < 5) :
    (chunkBlock k ok)[i]? = some (blockElem k ok i) := by
  interval_cases i <;> rfl

theorem completedTraceFrom_getElem? (outs : List Bool) : ∀ (b i : Nat),
    (completedTraceFrom b outs)[i]?
      = if h : i / 5 < outs.length
        then some (blockElem (b + i / 5) (outs.get ⟨i / 5, h⟩) (i % 5))
        else none := by
  induction outs with
  | nil =>
    intro b i
    simp [completedTraceFrom]
  | cons ok rest ih =>
    intro b i
    simp only [completedTraceFrom]
    rw [List.getElem?_append, chunkBlock_length]
    rcases Nat.lt_or_ge i 5 with h5 | h5
    · rw [if_pos h5, chunkBlock_getElem? _ _ _ h5]
      have hd : i / 5 = 0 := Nat.div_eq_of_lt h5
      have hm : i % 5 = i := Nat.mod_eq_of_lt h5
      rw [dif_pos (by rw [hd]; simp)]
      simp [hd, hm]
    · rw [if_neg (by omega)]
      obtain ⟨j, rfl⟩ : ∃ j, i = j + 5 := ⟨i - 5, by omega⟩
      rw [show j + 5 - 5 = j from by omega, ih (b + 1) j]
      have hd : (j + 5) / 5 = j / 5 + 1 := Nat.add_div_right j (by norm_num)
      have hm : (j + 5) % 5 = j % 5 := Nat.add_mod_right j 5
      simp only [hd, hm, List.length_cons]
      by_cases hc : j / 5 < rest.length
      · rw [dif_pos hc, dif_pos (Nat.succ_lt_succ hc)]
        rw [List.get_cons_succ, show b + (j / 5 + 1) = b + 1 + j / 5 from by omega]
      · rw [dif_neg hc, dif_neg (fun hcc => hc (Nat.lt_of_succ_lt_succ hcc))]

theorem completed_block_at (outs : List Bool) : ∀ (b k r : Nat)
    (hk : k < outs.length), r < 5 →
    (completedTraceFrom b outs)[5 * k + r]?
      = some (blockElem (b + k) (outs.get ⟨k, hk⟩) r) := by
  induction outs with
  | nil => intro b k r hk _; exact absurd hk (Nat.not_lt_zero k)
  | cons ok rest ih =>
    intro b k r hk hr
    cases k with
    | zero =>
      simp only [completedTraceFrom]
      rw [show 5 * 0 + r = r from by omega]
      rw [List.getElem?_append, chunkBlock_length, if_pos hr,
        chunkBlock_getElem? _ _ _ hr]
      simp
    | succ j =>
      simp only [completedTraceFrom]
      rw [List.getElem?_append_right (by rw [chunkBlock_length]; omega)]
      rw [show 5 * (j + 1) + r - (chunkBlock b ok).length = 5 * j + r from by
        rw [chunkBlock_length]; omega]
      have hj : j < rest.length := by
        simp only [List.length_cons] at hk
        omega
      rw [ih (b + 1) j r hj hr]
      rw [List.get_cons_succ, show b + 1 + j = b + (j + 1) from by omega]

theorem completed_invoke_pos (outs : List Bool) (i k : Nat)
    (h : (completedTraceFrom 0 outs)[i]? = some (Ev.invoke k)) :
    i = 5 * k + 1 ∧ k < outs.length := by
  rw [completedTraceFrom_getElem?] at h
  by_cases hc : i / 5 < outs.length
  · rw [dif_pos hc] at h
    have h5 : i % 5 = 0 ∨ i % 5 = 1 ∨ i % 5 = 2 ∨ i % 5 = 3 ∨ i % 5 = 4 := by omega
    rcases h5 with h5 | h5 | h5 | h5 | h5 <;> rw [h5] at h <;> simp [blockElem] at h
    omega
  · rw [dif_neg hc] at h
    simp at h

theorem completed_deliver_pos (outs : List Bool) (j m : Nat)
    (h : (completedTraceFrom 0 outs)[j]? = some (Ev.deliver m)) :
    j = 5 * m ∧ m < outs.length := by
  rw [completedTraceFrom_getElem?] at h
  by_cases hc : j / 5 < outs.length
  · rw [dif_pos hc] at h
    have h5 : j % 5 = 0 ∨ j % 5 = 1 ∨ j % 5 = 2 ∨ j % 5 = 3 ∨ j % 5 = 4 := by omega
    rcases h5 with h5 | h5 | h5 | h5 | h5 <;> rw [h5] at h <;> simp [blockElem] at h
    omega
  · rw [dif_neg hc] at h
    simp at h

theorem completed_settle_at (outs : List Bool) (k : Nat) (hk : k < outs.length) :
    ∃ ok, (completedTraceFrom 0 outs)[5 * k + 2]? = some (Ev.settle k ok) := by
  refine ⟨outs.get ⟨k, hk⟩, ?_⟩
  rw [completed_block_at outs 0 k 2 hk (by omega)]
  simp [blockElem]

theorem reach_shape {tr : List Ev} {st : MState} (h : Reach tr st) :
    (∃ outs : List Bool,
        st = { sourcePaused := false, parserPaused := false,
               nextChunk := outs.length, awaiting := none }
      ∧ tr = completedTraceFrom 0 outs)
    ∨ (∃ outs : List Bool,
        st = { sourcePaused := true, parserPaused := true,
               nextChunk := outs.length + 1, awaiting := some outs.length }
      ∧ tr = completedTraceFrom 0 outs
          ++ [Ev.deliver outs.length, Ev.invoke outs.length]) := by
  induction h with
  | init => exact Or.inl ⟨[], rfl, rfl⟩
  | step hr hstep ih =>
    rcases ih with ⟨outs, hst, htr⟩ | ⟨outs, hst, htr⟩
    · cases hstep with
      | deliver hs hp =>
        subst hst
        exact Or.inr ⟨outs, rfl, by rw [htr]⟩
      | settle k fulfilled hw =>
        subst hst
        simp at hw
    · cases hstep with
      | deliver hs hp =>
        subst hst
        simp at hs
      | settle k fulfilled hw =>
        subst hst
        have hk : k = outs.length := by simpa using hw.symm
        subst hk
        refine Or.inl ⟨outs ++ [fulfilled], by simp, ?_⟩
        rw [htr, completedTraceFrom_append]
        simp [completedTraceFrom, chunkBlock]

/-- C6: pausing is effective — in every reachable trace of a streaming
run, once the consumer callback has been invoked for chunk K, chunk K+1
is not delivered to the handler (the byte source and the tokenizer being
paused) until after the consumer's operation for chunk K has settled:
between the `invoke K` event and any `deliver (K+1)` event there is a
`settle K` event. -/
theorem no_delivery_before_settle {tr : List Ev} {st : MState} (h : Reach tr st)
    (k i j : Nat) (hi : tr[i]? = some (Ev.invoke k))
    (hj : tr[j]? = some (Ev.deliver (k + 1))) :
    ∃ m ok, i < m ∧ m < j ∧ tr[m]? = some (Ev.settle k ok) := by
  rcases reach_shape h with ⟨outs, _, rfl⟩ | ⟨outs, _, rfl⟩
  · obtain ⟨hj5, hkL⟩ := completed_deliver_pos outs j (k + 1) hj
    obtain ⟨hi5, -⟩ := completed_invoke_pos outs i k hi
    obtain ⟨ok, hs⟩ := completed_settle_at outs k (by omega)
    exact ⟨5 * k + 2, ok, by omega, by omega, hs⟩
  · have hL : (completedTraceFrom 0 outs).length = 5 * outs.length :=
      completedTraceFrom_length outs 0
    -- locate the deliver event
    rw [List.getElem?_append] at hj
    have hjfacts : j = 5 * (k + 1) ∧ k < outs.length := by
      by_cases hjc : j < (completedTraceFrom 0 outs).length
      · rw [if_pos hjc] at hj
        obtain ⟨hj5, hkL⟩ := completed_deliver_pos outs j (k + 1) hj
        exact ⟨hj5, by omega⟩
      · rw [if_neg hjc] at hj
        have hcase : j - (completedTraceFrom 0 outs).length = 0
            ∨ j - (completedTraceFrom 0 outs).length = 1
            ∨ 2 ≤ j - (completedTraceFrom 0 outs).length := by omega
        rcases hcase with hc | hc | hc
        · -- the pending event at offset 0 is `deliver outs.length`
          rw [hc] at hj
          simp at hj
          omega
        · -- offset 1 is `invoke`, not a `deliver`
          rw [hc] at hj
          simp at hj
        · -- offsets past the pending pair hold no event
          rw [List.getElem?_eq_none (by simp only [List.length_cons, List.length_nil]; omega)] at hj
          exact Option.noConfusion hj
    -- locate the invoke event
    rw [List.getElem?_append] at hi
    have hifacts : i = 5 * k + 1 := by
      by_cases hic : i < (completedTraceFrom 0 outs).length
      · rw [if_pos hic] at hi
        exact (completed_invoke_pos outs i k hi).1
      · rw [if_neg hic] at hi
        have hcase : i - (completedTraceFrom 0 outs).length = 0
            ∨ i - (completedTraceFrom 0 outs).length = 1
            ∨ 2 ≤ i - (completedTraceFrom 0 outs).length := by omega
        rcases hcase with hc | hc | hc
        · -- offset 0 is a `deliver`, not an `invoke`
          rw [hc] at hi
          simp at hi
        · -- offset 1: `invoke outs.length`, but `k < outs.length`
          rw [hc] at hi
          simp at hi
          omega
        · rw [List.getElem?_eq_none (by simp only [List.length_cons, List.length_nil]; omega)] at hi
          exact Option.noConfusion hi
    obtain ⟨ok, hs⟩ := completed_settle_at outs k hjfacts.2
    refine ⟨5 * k + 2, ok, by omega, by omega, ?_⟩
    rw [List.getElem?_append, if_pos (by rw [hL]; omega)]
    exact hs

theorem reach_completed (outs : List Bool) :
    Reach (completedTraceFrom 0 outs)
      { sourcePaused := false, parserPaused := false,
        nextChunk := outs.length, awaiting := none } := by
  induction outs using List.reverseRecOn with
  | nil => exact Reach.init
  | append_singleton xs x ih =>
    have h1 := Reach.step ih (Step.deliver _ rfl rfl)
    have h2 := Reach.step h1 (Step.settle _ xs.length x rfl)
    have h2' : Reach ((completedTraceFrom 0 xs
          ++ [Ev.deliver xs.length, Ev.invoke xs.length])
          ++ [Ev.settle xs.length x, Ev.resumeSource xs.length, Ev.resumeParser xs.length])
        { sourcePaused := false, parserPaused := false,
          nextChunk := xs.length + 1, awaiting := none } := h2
    have htr : (completedTraceFrom 0 xs ++ [Ev.deliver xs.length, Ev.invoke xs.length])
        ++ [Ev.settle xs.length x, Ev.resumeSource xs.length, Ev.resumeParser xs.length]
        = completedTraceFrom 0 (xs ++ [x]) := by
      rw [completedTraceFrom_append]
      simp [completedTraceFrom, chunkBlock]
    rw [htr] at h2'
    have hlen : (xs ++ [x]).length = xs.length + 1 := by simp
    rw [hlen]
    exact h2'

theorem chunkBlock_count_resumeSource (b : Nat) (ok : Bool) (k : Nat) :
    (chunkBlock b ok).count (Ev.resumeSource k) = if b = k then 1 else 0 := by
  by_cases h : b = k
  · subst h
    simp [chunkBlock, List.count_cons]
  · simp [chunkBlock, List.count_cons, h]

theorem chunkBlock_count_resumeParser (b : Nat) (ok : Bool) (k : Nat) :
    (chunkBlock b ok).count (Ev.resumeParser k) = if b = k then 1 else 0 := by
  by_cases h : b = k
  · subst h
    simp [chunkBlock, List.count_cons]
  · simp [chunkBlock, List.count_cons, h]

theorem completedTraceFrom_count_resumeSource (outs : List Bool) : ∀ b k : Nat,
    (completedTraceFrom b outs).count (Ev.resumeSource k)
      = if b ≤ k ∧ k < b + outs.length then 1 else 0 := by
  induction outs with
  | nil =>
    intro b k
    rw [if_neg (by simp only [List.length_nil]; omega)]
    rfl
  | cons ok rest ih =>
    intro b k
    simp only [completedTraceFrom, List.count_append, chunkBlock_count_resumeSource,
      ih (b + 1), List.length_cons]
    split_ifs <;> omega

theorem completedTraceFrom_count_resumeParser (outs : List Bool) : ∀ b k : Nat,
    (completedTraceFrom b outs).count (Ev.resumeParser k)
      = if b ≤ k ∧ k < b + outs.length then 1 else 0 := by
  induction outs with
  | nil =>
    intro b k
    rw [if_neg (by simp only [List.length_nil]; omega)]
    rfl
  | cons ok rest ih =>
    intro b k
    simp only [completedTraceFrom, List.count_append, chunkBlock_count_resumeParser,
      ih (b + 1), List.length_cons]
    split_ifs <;> omega

/-- C9: whatever the consumer outcomes — each chunk's promise fulfilled
or rejected — the run that fully processes every chunk is a reachable
behaviour, ending unpaused with nothing pending: a consumer failure
neither stalls the pipeline nor fails the run.  For every processed chunk
the byte source and the tokenizer are each resumed exactly once, right
after that chunk's settle event. -/
theorem settle_resumes_exactly_once (outs : List Bool) :
    Reach (completedTraceFrom 0 outs)
      { sourcePaused := false, parserPaused := false,
        nextChunk := outs.length, awaiting := none }
    ∧ ∀ k, k < outs.length →
        (completedTraceFrom 0 outs).count (Ev.resumeSource k) = 1
        ∧ (completedTraceFrom 0 outs).count (Ev.resumeParser k) = 1
        ∧ (∃ ok, (completedTraceFrom 0 outs)[5 * k + 2]? = some (Ev.settle k ok))
        ∧ (completedTraceFrom 0 outs)[5 * k + 3]? = some (Ev.resumeSource k)
        ∧ (completedTraceFrom 0 outs)[5 * k + 4]? = some (Ev.resumeParser k) := by
  refine ⟨reach_completed outs,
    fun k hk => ⟨?_, ?_, completed_settle_at outs k hk, ?_, ?_⟩⟩
  · rw [completedTraceFrom_count_resumeSource, if_pos (by omega)]
  · rw [completedTraceFrom_count_resumeParser, if_pos (by omega)]
  · have h := completed_block_at outs 0 k 3 hk (by omega)
    simpa [blockElem] using h
  · have h := completed_block_at outs 0 k 4 hk (by omega)
    simpa [blockElem] using h

/-- Witness for the C6 theorem at a concrete two-chunk run. -/
theorem no_delivery_before_settle_witness :
    ∃ m ok, 1 < m ∧ m < 5
      ∧ (completedTraceFrom 0 [true, true])[m]? = some (Ev.settle 0 ok) :=
  no_delivery_before_settle (reach_completed [true, true]) 0 1 5 (by decide) (by decide)

/-- Witness for the C9 theorem at a concrete run whose second consumer
promise is rejected. -/
theorem settle_resumes_exactly_once_witness :
    (completedTraceFrom 0 [true, false]).count (Ev.resumeSource 1) = 1
    ∧ (completedTraceFrom 0 [true, false]).count (Ev.resumeParser 1) = 1 :=
  ⟨((settle_resumes_exactly_once [true, false]).2 1 (by decide)).1,
   ((settle_resumes_exactly_once [true, false]).2 1 (by decide)).2.1⟩

end CsvParser
